import Mathlib

/- Verification model of the DAIY multi-pass reasoning orchestrator, its
   streaming decoder (thinking-block parser, tag extractor, timeline
   splitter) and the persistence helpers, embedded shallowly in Lean.
   Strings are modelled as their lists of unicode scalar characters
   (`String.data`); the JavaScript regular expressions used by the source
   are modelled character by character. -/

/-- The whitespace characters recognised by the JavaScript class `\s` and by
`String.prototype.trim` and `trimEnd`: ASCII whitespace plus the unicode
space characters and line separators. -/
def jsWhitespaceChars : List Char :=
  [' ', '\t', '\n', '\r', Char.ofNat 11, Char.ofNat 12, Char.ofNat 0xa0,
   Char.ofNat 0x1680, Char.ofNat 0x2000, Char.ofNat 0x2001, Char.ofNat 0x2002,
   Char.ofNat 0x2003, Char.ofNat 0x2004, Char.ofNat 0x2005, Char.ofNat 0x2006,
   Char.ofNat 0x2007, Char.ofNat 0x2008, Char.ofNat 0x2009, Char.ofNat 0x200a,
   Char.ofNat 0x2028, Char.ofNat 0x2029, Char.ofNat 0x202f, Char.ofNat 0x205f,
   Char.ofNat 0x3000, Char.ofNat 0xfeff]

/-- JavaScript whitespace test (the `\s` class and `trim`). -/
def isSpaceJS (c : Char) : Bool := jsWhitespaceChars.contains c

/-- A character matched by the JavaScript dot `.`: anything except the four
line terminators. -/
def isDotJS (c : Char) : Bool :=
  !(c = '\n' || c = '\r' || c = Char.ofNat 0x2028 || c = Char.ofNat 0x2029)

/-- Model of JavaScript `trimStart` on character lists. -/
def trimLeftJS (l : List Char) : List Char := l.dropWhile isSpaceJS

/-- Model of JavaScript `trimEnd` on character lists. -/
def trimRightJS (l : List Char) : List Char := (l.reverse.dropWhile isSpaceJS).reverse

/-- Model of JavaScript `String.prototype.trim` on character lists. -/
def trimJS (l : List Char) : List Char := trimRightJS (trimLeftJS l)

/-- Model of JavaScript `String.prototype.indexOf` for a pattern list:
index of the first occurrence, or `none`. -/
def firstIdx (pat : List Char) : List Char → Option Nat
  | [] => if pat.isPrefixOf [] then some 0 else none
  | c :: t => if pat.isPrefixOf (c :: t) then some 0 else (firstIdx pat t).map (· + 1)

/-- The pattern occurs somewhere in the list (declarative substring test). -/
def OccursIn (pat xs : List Char) : Prop :=
  ∃ i, i ≤ xs.length ∧ pat.isPrefixOf (xs.drop i) = true

instance (pat xs : List Char) : Decidable (OccursIn pat xs) :=
  @decidable_of_iff (OccursIn pat xs)
    (∃ i ∈ List.range (xs.length + 1), pat.isPrefixOf (xs.drop i) = true)
    (by unfold OccursIn; simp only [List.mem_range, Nat.lt_succ_iff])
    (List.decidableBEx _ _)

/-- Model of JavaScript `String.prototype.includes`. -/
def containsSub (xs pat : List Char) : Bool := (firstIdx pat xs).isSome

/-- Model of JavaScript `String.prototype.slice(a, b)` for nonnegative
arguments (empty when `b ≤ a`, clamped at the end of the string). -/
def sliceJS (a b : Nat) (xs : List Char) : List Char := (xs.drop a).take (b - a)

lemma isPrefixOf_eq {l₁ l₂ : List Char} : l₁.isPrefixOf l₂ = true ↔ l₁ <+: l₂ :=
  List.isPrefixOf_iff_prefix

lemma isPrefixOf_cons_cons (a b : Char) (l m : List Char) :
    (a :: l).isPrefixOf (b :: m) = (a == b && l.isPrefixOf m) := rfl

lemma isPrefixOf_append_self (l r : List Char) : l.isPrefixOf (l ++ r) = true :=
  isPrefixOf_eq.mpr (List.prefix_append l r)

lemma isPrefixOf_append_of_le {pat xs : List Char} (ext : List Char)
    (hlen : pat.length ≤ xs.length) :
    pat.isPrefixOf (xs ++ ext) = pat.isPrefixOf xs := by
  cases hp : pat.isPrefixOf xs with
  | true =>
      exact isPrefixOf_eq.mpr ((isPrefixOf_eq.mp hp).trans (List.prefix_append xs ext))
  | false =>
      cases hq : pat.isPrefixOf (xs ++ ext) with
      | false => rfl
      | true =>
          exfalso
          have h1 : pat = (xs ++ ext).take pat.length :=
            List.prefix_iff_eq_take.mp (isPrefixOf_eq.mp hq)
          have h2 : (xs ++ ext).take pat.length = xs.take pat.length := by
            rw [List.take_append_eq_append_take, Nat.sub_eq_zero_of_le hlen,
              List.take_zero, List.append_nil]
          have h3 : pat <+: xs := List.prefix_iff_eq_take.mpr (h1.trans h2)
          rw [isPrefixOf_eq.mpr h3] at hp
          simp at hp

lemma firstIdx_isPre {pat xs : List Char} {i : Nat} (h : firstIdx pat xs = some i) :
    pat.isPrefixOf (xs.drop i) = true := by
  induction xs generalizing i with
  | nil =>
      simp only [firstIdx] at h
      split at h
      · simp only [Option.some.injEq] at h
        subst h
        simpa using ‹pat.isPrefixOf [] = true›
      · exact absurd h (by simp)
  | cons c t ih =>
      simp only [firstIdx] at h
      split at h
      · simp only [Option.some.injEq] at h
        subst h
        simpa using ‹pat.isPrefixOf (c :: t) = true›
      · rcases Option.map_eq_some'.mp h with ⟨j, hj, rfl⟩
        simpa [List.drop_succ_cons] using ih hj

lemma firstIdx_min {pat xs : List Char} {i : Nat} (h : firstIdx pat xs = some i) :
    ∀ j, j < i → pat.isPrefixOf (xs.drop j) = false := by
  induction xs generalizing i with
  | nil =>
      simp only [firstIdx] at h
      split at h
      · simp only [Option.some.injEq] at h
        subst h
        intro j hj
        exact absurd hj (Nat.not_lt_zero j)
      · exact absurd h (by simp)
  | cons c t ih =>
      simp only [firstIdx] at h
      split at h
      · simp only [Option.some.injEq] at h
        subst h
        intro j hj
        exact absurd hj (Nat.not_lt_zero j)
      · rcases Option.map_eq_some'.mp h with ⟨k, hk, rfl⟩
        intro j hj
        cases j with
        | zero =>
            simpa using Bool.not_eq_true _ |>.mp ‹¬pat.isPrefixOf (c :: t) = true›
        | succ j' =>
            simpa [List.drop_succ_cons] using ih hk j' (Nat.lt_of_succ_lt_succ hj)

lemma firstIdx_eq_some_iff {pat xs : List Char} {i : Nat} :
    firstIdx pat xs = some i ↔
      (pat.isPrefixOf (xs.drop i) = true ∧ ∀ j, j < i → pat.isPrefixOf (xs.drop j) = false) := by
  constructor
  · intro h
    exact ⟨firstIdx_isPre h, firstIdx_min h⟩
  · intro ⟨h1, h2⟩
    induction xs generalizing i with
    | nil =>
        cases i with
        | zero => simpa [firstIdx] using h1
        | succ n =>
            have := h2 0 (Nat.succ_pos n)
            simp only [List.drop_nil] at h1 this
            rw [this] at h1
            exact absurd h1 (by simp)
    | cons c t ih =>
        cases i with
        | zero =>
            simp only [List.drop_zero] at h1
            simp [firstIdx, h1]
        | succ n =>
            have h0 := h2 0 (Nat.succ_pos n)
            simp only [List.drop_zero] at h0
            have ht : firstIdx pat t = some n := by
              apply ih
              · simpa [List.drop_succ_cons] using h1
              · intro j hj
                simpa [List.drop_succ_cons] using h2 (j + 1) (Nat.succ_lt_succ hj)
            simp [firstIdx, h0, ht]

lemma firstIdx_add_le {pat xs : List Char} {i : Nat} (hp : pat ≠ [])
    (h : firstIdx pat xs = some i) : i + pat.length ≤ xs.length := by
  have h1 := isPrefixOf_eq.mp (firstIdx_isPre h)
  have h2 : pat.length ≤ (xs.drop i).length := h1.length_le
  have h3 : xs.drop i ≠ [] := by
    intro hnil
    rw [hnil] at h1
    exact hp (List.prefix_nil.mp h1)
  have h4 : i < xs.length := by
    by_contra hcon
    exact h3 (List.drop_eq_nil_of_le (Nat.le_of_not_lt hcon))
  rw [List.length_drop] at h2
  omega

lemma firstIdx_append {pat xs : List Char} {i : Nat} (ext : List Char)
    (h : firstIdx pat xs = some i) : firstIdx pat (xs ++ ext) = some i := by
  induction xs generalizing i with
  | nil =>
      simp only [firstIdx] at h
      split at h
      · simp only [Option.some.injEq] at h
        subst h
        have : pat = [] := List.prefix_nil.mp (isPrefixOf_eq.mp ‹pat.isPrefixOf [] = true›)
        subst this
        cases ext <;> simp [firstIdx, List.isPrefixOf]
      · exact absurd h (by simp)
  | cons c t ih =>
      simp only [firstIdx] at h
      split at h
      · simp only [Option.some.injEq] at h
        subst h
        have := isPrefixOf_eq.mpr
          ((isPrefixOf_eq.mp ‹pat.isPrefixOf (c :: t) = true›).trans
            (List.prefix_append (c :: t) ext))
        simp only [List.cons_append, firstIdx]
        rw [List.cons_append] at this
        simp [this]

      · rcases Option.map_eq_some'.mp h with ⟨k, hk, rfl⟩
        have hne : pat ≠ [] := by
          intro hnil
          subst hnil
          simp [List.isPrefixOf] at *
        have hlen : pat.length ≤ (c :: t).length := by
          have := firstIdx_add_le hne hk
          simp only [List.length_cons]
          omega
        have hfalse : pat.isPrefixOf ((c :: t) ++ ext) = false := by
          rw [isPrefixOf_append_of_le ext hlen]
          exact Bool.not_eq_true _ |>.mp ‹¬pat.isPrefixOf (c :: t) = true›
        rw [List.cons_append] at hfalse ⊢
        simp only [firstIdx]
        simp [hfalse, ih hk]

lemma firstIdx_none_all {pat xs : List Char} (h : firstIdx pat xs = none) :
    ∀ i, pat.isPrefixOf (xs.drop i) = false := by
  induction xs with
  | nil =>
      intro i
      simp only [firstIdx] at h
      split at h
      · exact absurd h (by simp)
      · rw [List.drop_nil]
        exact Bool.not_eq_true _ |>.mp ‹¬pat.isPrefixOf [] = true›
  | cons c t ih =>
      simp only [firstIdx] at h
      split at h
      · exact absurd h (by simp)
      · have hnone : firstIdx pat t = none := by
          cases hf : firstIdx pat t with
          | none => rfl
          | some k => rw [hf] at h; exact absurd h (by simp)
        intro i
        cases i with
        | zero =>
            rw [List.drop_zero]
            exact Bool.not_eq_true _ |>.mp ‹¬pat.isPrefixOf (c :: t) = true›
        | succ j =>
            rw [List.drop_succ_cons]
            exact ih hnone j

lemma firstIdx_none_iff {pat xs : List Char} :
    firstIdx pat xs = none ↔ ¬ OccursIn pat xs := by
  constructor
  · intro h hocc
    rcases hocc with ⟨i, _, hpre⟩
    rw [firstIdx_none_all h i] at hpre
    exact Bool.false_ne_true hpre
  · intro h
    cases hf : firstIdx pat xs with
    | none => rfl
    | some i =>
        exfalso
        apply h
        refine ⟨i, ?_, firstIdx_isPre hf⟩
        by_cases hp : pat = []
        · subst hp
          rcases firstIdx_eq_some_iff.mp hf with ⟨_, h2⟩
          cases i with
          | zero => exact Nat.zero_le _
          | succ n =>
              have := h2 0 (Nat.succ_pos n)
              simp [List.isPrefixOf] at this
        · have h1 := firstIdx_add_le hp hf
          have h2 : 1 ≤ pat.length := by
            cases pat with
            | nil => exact absurd rfl hp
            | cons a l => simp
          omega

/-- A parsed reasoning step: tag plus single-line text, from a `[TAG] text`
match. -/
structure ThinkingStep where
  tag : String
  text : String
deriving DecidableEq

/-- The fixed 15-symbol reasoning vocabulary shared by `extractThinkingSteps`
and the chat route's inline `extractSteps` helper. -/
def reasoningTags : List String :=
  ["ANALYZING", "DECOMPOSING", "MAPPING", "DETECTING", "IDENTIFYING",
   "STRATEGIZING", "CONNECTING", "EVALUATING", "FORMULATING", "RECALLING",
   "QUESTIONING", "SYNTHESIZING", "CRITIQUING", "REFINING", "VALIDATING"]

/-- The five timeline tags of `parseTimelineEvents`. -/
def timelineTags : List String :=
  ["QUESTION", "ASSUMPTION", "CHALLENGE", "INSIGHT", "BREAKTHROUGH"]

/-- Case-insensitive matching of an upper-case pattern word against the head
of the input, as the regex flag `i` does; returns the remainder on success. -/
def stripPrefixCI : List Char → List Char → Option (List Char)
  | [], xs => some xs
  | _ :: _, [] => none
  | t :: ts, x :: xs => if x.toUpper = t then stripPrefixCI ts xs else none

/-- Match a bracketed vocabulary tag at the head of the input
(case-insensitive); returns the canonical tag and the remainder after the
closing bracket. -/
def matchVocabTag (vocab : List String) (xs : List Char) : Option (String × List Char) :=
  match xs with
  | [] => none
  | x :: rest =>
      if x = '[' then
        vocab.findSome? fun tag =>
          match stripPrefixCI tag.data rest with
          | none => none
          | some [] => none
          | some (c :: r) => if c = ']' then some (tag, r) else none
      else none

/-- Match the regex tail `\s*(.+)` at the head of the input with JavaScript
greedy-with-backtracking semantics; returns the text captured by `(.+)` and
the remainder of the input after the match. -/
def matchSpacesDot : List Char → Option (List Char × List Char)
  | [] => none
  | c :: cs =>
      if isSpaceJS c then
        match matchSpacesDot cs with
        | some r => some r
        | none =>
            if isDotJS c then
              some ((c :: cs).takeWhile isDotJS, (c :: cs).dropWhile isDotJS)
            else none
      else
        if isDotJS c then
          some ((c :: cs).takeWhile isDotJS, (c :: cs).dropWhile isDotJS)
        else none

/-- One attempt of the reasoning-step regex `\[(TAG)\]\s*(.+)` at the current
position. On success returns the step (tag upper-cased, text trimmed) and the
remainder of the input after the match. -/
def matchStepAt (xs : List Char) : Option (ThinkingStep × List Char) :=
  match matchVocabTag reasoningTags xs with
  | none => none
  | some (tag, rest) =>
      match matchSpacesDot rest with
      | none => none
      | some (txt, rem) => some (⟨tag, String.mk (trimJS txt)⟩, rem)

/-- Scanner loop of the reasoning-step extraction: at each position try the
step regex; on success emit the step and resume after the match, otherwise
advance one character. The fuel argument only serves termination;
`xs.length` steps always suffice. -/
def extractGo : Nat → List Char → List ThinkingStep
  | _, [] => []
  | 0, _ :: _ => []
  | n + 1, x :: t =>
      match matchStepAt (x :: t) with
      | some (st, rem) => st :: extractGo n rem
      | none => extractGo n t

/-- List-level model of `extractThinkingSteps`. -/
def extractStepsL (xs : List Char) : List ThinkingStep := extractGo xs.length xs

/-- Model of `extractThinkingSteps` (lib/utils) and of the identical inline
`extractSteps` helper of the chat route: all matches of the global regex
`/\[(ANALYZING|...|VALIDATING)\]\s*(.+)/gi` in order, tag upper-cased, text
trimmed. -/
def extractThinkingSteps (raw : String) : List ThinkingStep := extractStepsL raw.data

def thinkOpenPat : List Char := "<think>".data

def thinkClosePat : List Char := "</think>".data

/-- Decoder state produced by `parseThinkingContent`. -/
structure ThinkingParseResult where
  isThinking : Bool
  isComplete : Bool
  steps : List ThinkingStep
  responseContent : String
  rawThinking : String
deriving DecidableEq

/-- Model of `parseThinkingContent` (lib/utils): re-derives the decoder state
from the whole accumulated buffer on every update. -/
def parseThinkingContent (fullContent : String) : ThinkingParseResult :=
  match firstIdx thinkOpenPat fullContent.data with
  | none =>
      { isThinking := false, isComplete := false, steps := [],
        responseContent := fullContent, rawThinking := "" }
  | some o =>
      match firstIdx thinkClosePat fullContent.data with
      | none =>
          { isThinking := true, isComplete := false,
            steps := extractStepsL (fullContent.data.drop (o + 7)),
            responseContent := "",
            rawThinking := String.mk (fullContent.data.drop (o + 7)) }
      | some c =>
          { isThinking := false, isComplete := true,
            steps := extractStepsL (sliceJS (o + 7) c fullContent.data),
            responseContent := String.mk (trimJS (fullContent.data.drop (c + 8))),
            rawThinking := String.mk (sliceJS (o + 7) c fullContent.data) }

/-- Scanner loop of `stripThinkingBlock`: repeatedly delete the earliest
`<think>` span closed by the earliest `</think>` after it, together with the
whitespace run that follows. Fuel only serves termination; `xs.length`
steps always suffice. -/
def stripGo : Nat → List Char → List Char
  | 0, xs => xs
  | n + 1, xs =>
      match firstIdx thinkOpenPat xs with
      | none => xs
      | some i =>
          match firstIdx thinkClosePat (xs.drop (i + 7)) with
          | none => xs
          | some j =>
              xs.take i ++ stripGo n (((xs.drop (i + 7)).drop (j + 8)).dropWhile isSpaceJS)

/-- Model of `stripThinkingBlock` (lib/utils), that is
`content.replace` of the pattern `<think>[\s\S]*?<\/think>\s*` by the empty
string, followed by `trim`. -/
def stripThinkingBlock (content : String) : String :=
  String.mk (trimJS (stripGo content.data.length content.data))

/-- Model of `truncate` (lib/utils) on character lists: inputs at most
`maxLength` long pass through, longer ones are cut at `maxLength`,
right-trimmed and suffixed with a single ellipsis character. -/
def truncateL (maxLength : Nat) (l : List Char) : List Char :=
  if l.length ≤ maxLength then l else trimRightJS (l.take maxLength) ++ ['…']

/-- A timeline event derived from response text. -/
structure TimelineEvent where
  type : String
  text : String
deriving DecidableEq

/-- Scanner of the capturing split on the timeline-tag pattern: returns the
text before the first tag and the list of pairs of a canonical tag and the
segment following it (up to the next tag). Fuel only serves termination;
`xs.length` steps always suffice. -/
def splitTimelineGo : Nat → List Char → List Char × List (String × List Char)
  | _, [] => ([], [])
  | 0, xs => (xs, [])
  | n + 1, x :: t =>
      match matchVocabTag timelineTags (x :: t) with
      | some (tag, rest) =>
          let p := splitTimelineGo n rest
          ([], (tag, p.1) :: p.2)
      | none =>
          let p := splitTimelineGo n t
          (x :: p.1, p.2)

/-- Model of `parseTimelineEvents` (lib/utils): split the content on the five
timeline tags (case-insensitive), and turn each captured tag and its segment
into one event, the type lower-cased and the text reduced to the first line
of the trimmed segment and truncated to 80 characters. -/
def parseTimelineEvents (content : String) : List TimelineEvent :=
  let p := splitTimelineGo content.data.length content.data
  p.2.map fun q =>
    { type := String.mk (q.1.data.map Char.toLower),
      text := String.mk (truncateL 80 ((trimJS q.2).takeWhile (fun c => c != '\n'))) }

/-- The canonical timeline event stored on a message: the type of the last
detected event, if any. -/
def mainTimelineEvent (content : String) : Option String :=
  (parseTimelineEvents content).getLast?.map TimelineEvent.type

def breakthroughMarker : String := "[BREAKTHROUGH]"

/-- The data handed to the persistence collaborator (`addMessage`) for a
completed assistant turn: the stored content, the breakthrough flag, and the
canonical timeline event. -/
structure PersistArgs where
  content : String
  isBreakthrough : Bool
  timelineEvent : Option String
deriving DecidableEq

/-- Completion processing of the live chat page (`handleSend` in
`app/chat/[[...id]]/page.tsx`): strip the thinking block when extended
thinking is on, then derive the breakthrough flag and the canonical timeline
event from that clean content. -/
def handleSendPersist (extendedThinking : Bool) (fullContent : String) : PersistArgs :=
  let cleanContent := if extendedThinking then stripThinkingBlock fullContent else fullContent
  { content := cleanContent,
    isBreakthrough := containsSub cleanContent.data breakthroughMarker.data,
    timelineEvent := mainTimelineEvent cleanContent }

/-- Completion processing of the `useChat` hook (a second, unreferenced send
implementation in the repository): pass the raw accumulated stream text to
`addMessage` and compute the flag and the timeline events on it, without
stripping. -/
def useChatPersist (fullContent : String) : PersistArgs :=
  { content := fullContent,
    isBreakthrough := containsSub fullContent.data breakthroughMarker.data,
    timelineEvent := mainTimelineEvent fullContent }

/-- Model of JavaScript `String.prototype.startsWith`. -/
def startsWithJS (s pre : String) : Bool := pre.data.isPrefixOf s.data

/-- Model of `getProviderForModel` (lib/ai/provider): deterministic
prefix-based mapping, defaulting to groq for unknown model ids. -/
def getProviderForModel (modelId : String) : String :=
  if startsWithJS modelId "gemini" then "gemini"
  else if startsWithJS modelId "gpt" then "openai"
  else if startsWithJS modelId "claude" then "anthropic"
  else if startsWithJS modelId "llama" || containsSub modelId.data "groq".data then "groq"
  else "groq"

/-- The four provider backends a dispatch can reach. -/
inductive AdapterBackend where
  | gemini
  | openai
  | anthropic
  | groq
deriving DecidableEq

/-- Dispatch switch of `streamChat` (lib/ai/provider): which backend is
invoked, or the `Unknown provider` error thrown by the default branch. -/
def streamChatDispatch (provider : String) : Except String AdapterBackend :=
  if provider = "gemini" then .ok .gemini
  else if provider = "openai" then .ok .openai
  else if provider = "anthropic" then .ok .anthropic
  else if provider = "groq" then .ok .groq
  else .error ("Unknown provider: " ++ provider)

/-- Dispatch switch of `completeChat` (lib/ai/provider), with the same case
structure as `streamChat`. -/
def completeChatDispatch (provider : String) : Except String AdapterBackend :=
  if provider = "gemini" then .ok .gemini
  else if provider = "openai" then .ok .openai
  else if provider = "anthropic" then .ok .anthropic
  else if provider = "groq" then .ok .groq
  else .error ("Unknown provider: " ++ provider)

/-- Stream events of the chat route, before transport framing. -/
inductive StreamEvent where
  | text (s : String)
  | error (msg : String)
  | done
deriving DecidableEq

def openingSentinel : String := "<think>\n"

def closingSentinel : String := "</think>\n\n"

def critiquingLine : String := "[CRITIQUING] Reviewing analysis for blind spots and flaws\n"

def refiningLine : String := "[REFINING] Strengthening teaching strategy based on critique\n"

def validatingLine : String := "[VALIDATING] Confirming question targets the exact knowledge gap\n"

/-- The `Text` fragment the orchestrator emits for one extracted step. -/
def stepLine (st : ThinkingStep) : String := "[" ++ st.tag ++ "] " ++ st.text ++ "\n"

/-- Model of `decomposition.match` against `<think>([\s\S]*?)<\/think>`: the
text captured between the first viable open marker and the first close marker
after it, when the pattern matches at all. -/
def firstThinkInner (s : String) : Option String :=
  match firstIdx thinkOpenPat s.data with
  | none => none
  | some o =>
      match firstIdx thinkClosePat (s.data.drop (o + 7)) with
      | none => none
      | some j => some (String.mk ((s.data.drop (o + 7)).take j))

/-- The steps the orchestrator reveals for pass 1: extraction over the
embedded reasoning block of the decomposition when present, else over the
whole decomposition text. -/
def decomposeSteps (decomposition : String) : List ThinkingStep :=
  match firstThinkInner decomposition with
  | some inner => extractThinkingSteps inner
  | none => extractThinkingSteps decomposition

/-- The `Text` events pass 1 emits, one per extracted step. -/
def decomposeStepEvents (decomposition : String) : List StreamEvent :=
  (decomposeSteps decomposition).map fun st => StreamEvent.text (stepLine st)

/-- The sequence of stream events produced by one extended-mode run of the
chat route's POST handler, as a function of the outcomes of the three adapter
calls: the decompose and critique `completeChat` results, and the pass-3
`streamChat` stream abstracted as the chunks it yielded followed by an
optional failure. An adapter error is caught by the route's single handler,
surfaced as one `error` frame, and the stream is closed right after. -/
def extendedRun (decomposeResult critiqueResult : Except String String)
    (respondChunks : List String) (respondError : Option String) : List StreamEvent :=
  match decomposeResult with
  | .error e => [.text openingSentinel, .error e]
  | .ok d =>
      match critiqueResult with
      | .error e =>
          .text openingSentinel :: decomposeStepEvents d ++ [.text critiquingLine, .error e]
      | .ok _ =>
          .text openingSentinel :: decomposeStepEvents d ++
            [.text critiquingLine, .text refiningLine, .text validatingLine,
             .text closingSentinel] ++
            respondChunks.map .text ++
            (match respondError with
             | some e => [.error e]
             | none => [.done])

/-- Whether a stream event is a `Text` frame beginning with a bracketed
reasoning-vocabulary tag. -/
def isReasoningVocabText (e : StreamEvent) : Bool :=
  match e with
  | .text s => (matchVocabTag reasoningTags s.data).isSome
  | _ => false

/-- Whether a stream event is an `Error` frame. -/
def isErrorEvent (e : StreamEvent) : Bool :=
  match e with
  | .error _ => true
  | _ => false

lemma drop_append_of_le {xs : List Char} (ext : List Char) {n : Nat} (h : n ≤ xs.length) :
    (xs ++ ext).drop n = xs.drop n ++ ext := by
  rw [List.drop_append_eq_append_drop, Nat.sub_eq_zero_of_le h, List.drop_zero]

lemma take_append_of_le {xs : List Char} (ext : List Char) {n : Nat} (h : n ≤ xs.length) :
    (xs ++ ext).take n = xs.take n := by
  rw [List.take_append_eq_append_take, Nat.sub_eq_zero_of_le h, List.take_zero,
    List.append_nil]

lemma sliceJS_append {xs : List Char} (ext : List Char) {a b : Nat} (hb : b ≤ xs.length) :
    sliceJS a b (xs ++ ext) = sliceJS a b xs := by
  unfold sliceJS
  by_cases ha : a ≤ xs.length
  · rw [drop_append_of_le ext ha]
    apply take_append_of_le
    rw [List.length_drop]
    omega
  · have h1 : b - a = 0 := by omega
    simp [h1]

lemma reverse_pre_of_suffix {l₁ l₂ : List Char} (h : l₁ <:+ l₂) :
    l₁.reverse <+: l₂.reverse := by
  rcases h with ⟨t, rfl⟩
  rw [List.reverse_append]
  exact List.prefix_append _ _

lemma trimRightJS_grows (X B : List Char) : trimRightJS X <+: trimRightJS (X ++ B) := by
  unfold trimRightJS
  apply reverse_pre_of_suffix
  rw [List.reverse_append, List.dropWhile_append]
  split
  · exact List.suffix_refl _
  · exact (List.dropWhile_suffix _).trans (List.suffix_append _ _)

lemma trimJS_grows (A B : List Char) : trimJS A <+: trimJS (A ++ B) := by
  unfold trimJS trimLeftJS
  rw [List.dropWhile_append]
  split
  · have h : List.dropWhile isSpaceJS A = [] := List.isEmpty_iff.mp ‹_›
    rw [h]
    exact ⟨_, rfl⟩
  · exact trimRightJS_grows _ _

lemma trimRightJS_isPre (X : List Char) : trimRightJS X <+: X := by
  have h := reverse_pre_of_suffix (List.dropWhile_suffix (l := X.reverse) isSpaceJS)
  rw [List.reverse_reverse] at h
  exact h

lemma dropWhile_eq_self_of_pre {X Y : List Char} (hXY : Y <+: X)
    (hX : X.dropWhile isSpaceJS = X) : Y.dropWhile isSpaceJS = Y := by
  cases Y with
  | nil => rfl
  | cons y t =>
      rcases hXY with ⟨r, rfl⟩
      rw [List.cons_append, List.dropWhile_cons] at hX
      rw [List.dropWhile_cons]
      by_cases hy : isSpaceJS y = true
      · exfalso
        rw [if_pos hy] at hX
        have hlen := congrArg List.length hX
        have hle : (List.dropWhile isSpaceJS (t ++ r)).length ≤ (t ++ r).length :=
          ((List.dropWhile_suffix _).sublist).length_le
        simp only [List.length_cons, List.length_append] at hlen hle
        omega
      · rw [if_neg hy]

lemma trimRightJS_idem (X : List Char) : trimRightJS (trimRightJS X) = trimRightJS X := by
  unfold trimRightJS
  rw [List.reverse_reverse, List.dropWhile_idempotent]

lemma trimJS_idem (l : List Char) : trimJS (trimJS l) = trimJS l := by
  unfold trimJS
  have h1 : (trimLeftJS l).dropWhile isSpaceJS = trimLeftJS l :=
    List.dropWhile_idempotent _ _
  have h2 : (trimRightJS (trimLeftJS l)).dropWhile isSpaceJS =
      trimRightJS (trimLeftJS l) :=
    dropWhile_eq_self_of_pre (trimRightJS_isPre _) h1
  unfold trimLeftJS at h2 ⊢
  rw [h2, trimRightJS_idem]

lemma mem_trimRightJS {c : Char} {l : List Char} (h : c ∈ trimRightJS l) : c ∈ l := by
  unfold trimRightJS at h
  rw [List.mem_reverse] at h
  have h2 := List.Sublist.mem h (List.dropWhile_suffix isSpaceJS).sublist
  rwa [List.mem_reverse] at h2

lemma mem_trimJS {c : Char} {l : List Char} (h : c ∈ trimJS l) : c ∈ l := by
  unfold trimJS trimLeftJS at h
  exact List.Sublist.mem (mem_trimRightJS h) (List.dropWhile_suffix isSpaceJS).sublist

lemma trimRightJS_length_le (X : List Char) : (trimRightJS X).length ≤ X.length :=
  (trimRightJS_isPre X).sublist.length_le

lemma findSome?_mem {α β : Type} {f : α → Option β} {l : List α} {b : β}
    (h : l.findSome? f = some b) : ∃ a ∈ l, f a = some b := by
  induction l with
  | nil => simp [List.findSome?_nil] at h
  | cons x t ih =>
      rw [List.findSome?_cons] at h
      cases hx : f x with
      | some c =>
          rw [hx] at h
          exact ⟨x, List.mem_cons_self x t, by rw [hx]; exact h⟩
      | none =>
          rw [hx] at h
          rcases ih h with ⟨a, ha, hfa⟩
          exact ⟨a, List.mem_cons_of_mem _ ha, hfa⟩

lemma findSome?_isSome_of {α β : Type} {f : α → Option β} {l : List α} {a : α}
    (ha : a ∈ l) (hf : (f a).isSome = true) : (l.findSome? f).isSome = true := by
  induction l with
  | nil => simp at ha
  | cons x t ih =>
      rw [List.findSome?_cons]
      cases hx : f x with
      | some c => simp
      | none =>
          rcases List.mem_cons.mp ha with rfl | hat
          · rw [hx] at hf
            simp at hf
          · exact ih hat

lemma stripPrefixCI_self {t : List Char} (h : ∀ c ∈ t, c.toUpper = c) (r : List Char) :
    stripPrefixCI t (t ++ r) = some r := by
  induction t with
  | nil => rfl
  | cons c ts ih =>
      simp only [List.cons_append, stripPrefixCI]
      rw [if_pos (h c (List.mem_cons_self c ts))]
      exact ih fun d hd => h d (List.mem_cons_of_mem _ hd)

lemma matchVocabTag_tag_mem {vocab : List String} {xs : List Char} {tag : String}
    {rest : List Char} (h : matchVocabTag vocab xs = some (tag, rest)) : tag ∈ vocab := by
  cases xs with
  | nil => simp [matchVocabTag] at h
  | cons x t =>
      simp only [matchVocabTag] at h
      by_cases hx : x = '['
      · rw [if_pos hx] at h
        rcases findSome?_mem h with ⟨a, ha, hfa⟩
        cases hs : stripPrefixCI a.data t with
        | none => simp [hs] at hfa
        | some r' =>
            cases r' with
            | nil => simp [hs] at hfa
            | cons c r'' =>
                simp only [hs] at hfa
                by_cases hc : c = ']'
                · rw [if_pos hc] at hfa
                  have h2 := Option.some.inj hfa
                  injection h2 with h3 h4
                  exact h3 ▸ ha
                · rw [if_neg hc] at hfa
                  simp at hfa
      · rw [if_neg hx] at h
        simp at h

lemma dotRun_case {c : Char} {cs txt rem : List Char} (hd : isDotJS c = true)
    (h : some ((c :: cs).takeWhile isDotJS, (c :: cs).dropWhile isDotJS) = some (txt, rem)) :
    ∃ k, txt = ((c :: cs).drop k).takeWhile isDotJS ∧
      rem = ((c :: cs).drop k).dropWhile isDotJS ∧ txt ≠ [] := by
  have h2 := Option.some.inj h
  injection h2 with h3 h4
  refine ⟨0, by rw [List.drop_zero, h3], by rw [List.drop_zero, h4], ?_⟩
  rw [← h3]
  simp [List.takeWhile_cons, hd]

lemma matchSpacesDot_shape :
    ∀ (l txt rem : List Char), matchSpacesDot l = some (txt, rem) →
      ∃ k, txt = (l.drop k).takeWhile isDotJS ∧ rem = (l.drop k).dropWhile isDotJS ∧
        txt ≠ [] := by
  intro l
  induction l with
  | nil => intro txt rem h; simp [matchSpacesDot] at h
  | cons c cs ih =>
      intro txt rem h
      simp only [matchSpacesDot] at h
      by_cases hs : isSpaceJS c = true
      · rw [if_pos hs] at h
        cases hm : matchSpacesDot cs with
        | some r =>
            simp only [hm] at h
            have hr := Option.some.inj h
            rcases ih r.1 r.2 (by rw [hm]) with ⟨k, h1, h2, h3⟩
            rw [hr] at h1 h2 h3
            exact ⟨k + 1, by simpa [List.drop_succ_cons] using h1,
              by simpa [List.drop_succ_cons] using h2, h3⟩
        | none =>
            simp only [hm] at h
            by_cases hd : isDotJS c = true
            · rw [if_pos hd] at h
              exact dotRun_case hd h
            · rw [if_neg hd] at h
              simp at h
      · rw [if_neg hs] at h
        by_cases hd : isDotJS c = true
        · rw [if_pos hd] at h
          exact dotRun_case hd h
        · rw [if_neg hd] at h
          simp at h

lemma matchStepAt_props {xs : List Char} {st : ThinkingStep} {rem : List Char}
    (h : matchStepAt xs = some (st, rem)) :
    st.tag ∈ reasoningTags ∧ st.text.data = trimJS st.text.data ∧
      ∀ c ∈ st.text.data, isDotJS c = true := by
  unfold matchStepAt at h
  cases hv : matchVocabTag reasoningTags xs with
  | none => simp [hv] at h
  | some p =>
      simp only [hv] at h
      obtain ⟨tag, rest⟩ := p
      cases hm : matchSpacesDot rest with
      | none => simp [hm] at h
      | some q =>
          simp only [hm] at h
          obtain ⟨txt, rem'⟩ := q
          have h2 := Option.some.inj h
          injection h2 with h3 h4
          subst h3
          refine ⟨matchVocabTag_tag_mem hv, ?_, ?_⟩
          · show trimJS txt = trimJS (trimJS txt)
            rw [trimJS_idem]
          · intro c hc
            have hc2 : c ∈ txt := mem_trimJS hc
            rcases matchSpacesDot_shape rest txt rem' hm with ⟨k, hk1, _, _⟩
            rw [hk1] at hc2
            exact List.mem_takeWhile_imp hc2

lemma extractGo_props :
    ∀ (n : Nat) (xs : List Char) (st : ThinkingStep), st ∈ extractGo n xs →
      st.tag ∈ reasoningTags ∧ st.text.data = trimJS st.text.data ∧
        ∀ c ∈ st.text.data, isDotJS c = true := by
  intro n
  induction n with
  | zero => intro xs st h; cases xs <;> simp [extractGo] at h
  | succ n ih =>
      intro xs st h
      cases xs with
      | nil => simp [extractGo] at h
      | cons x t =>
          simp only [extractGo] at h
          cases hm : matchStepAt (x :: t) with
          | some p =>
              obtain ⟨st', rem⟩ := p
              rw [hm] at h
              rcases List.mem_cons.mp h with rfl | h2
              · exact matchStepAt_props hm
              · exact ih rem st h2
          | none =>
              rw [hm] at h
              exact ih t st h

lemma matchVocabTag_none_of_head {vocab : List String} {x : Char} {t : List Char}
    (hx : x ≠ '[') : matchVocabTag vocab (x :: t) = none := by
  simp only [matchVocabTag]
  rw [if_neg hx]

lemma extractGo_nil_of_no_bracket :
    ∀ (n : Nat) (xs : List Char), '[' ∉ xs → extractGo n xs = [] := by
  intro n
  induction n with
  | zero => intro xs _; cases xs <;> simp [extractGo]
  | succ n ih =>
      intro xs h
      cases xs with
      | nil => simp [extractGo]
      | cons x t =>
          have hx : x ≠ '[' := by
            intro he
            exact h (he ▸ List.mem_cons_self x t)
          have hm : matchStepAt (x :: t) = none := by
            unfold matchStepAt
            rw [matchVocabTag_none_of_head hx]
          simp only [extractGo, hm]
          exact ih t fun ht => h (List.mem_cons_of_mem _ ht)

lemma reasoningTags_upper : ∀ tag ∈ reasoningTags, ∀ c ∈ tag.data, c.toUpper = c := by
  decide

lemma matchVocabTag_stepLine {st : ThinkingStep} (h : st.tag ∈ reasoningTags) :
    (matchVocabTag reasoningTags (stepLine st).data).isSome = true := by
  have hdata : (stepLine st).data =
      '[' :: (st.tag.data ++ ']' :: (" " ++ st.text ++ "\n").data) := by
    show ("[" ++ st.tag ++ "] " ++ st.text ++ "\n").data = _
    simp [String.data_append]
  rw [hdata]
  simp only [matchVocabTag]
  rw [if_true]
  apply findSome?_isSome_of h
  rw [stripPrefixCI_self (reasoningTags_upper _ h) _]
  simp

lemma splitTimelineGo_tag_mem :
    ∀ (n : Nat) (xs : List Char) (q : String × List Char),
      q ∈ (splitTimelineGo n xs).2 → q.1 ∈ timelineTags := by
  intro n
  induction n with
  | zero => intro xs q h; cases xs <;> simp [splitTimelineGo] at h
  | succ n ih =>
      intro xs q h
      cases xs with
      | nil => simp [splitTimelineGo] at h
      | cons x t =>
          simp only [splitTimelineGo] at h
          cases hv : matchVocabTag timelineTags (x :: t) with
          | some p =>
              simp only [hv] at h
              rcases List.mem_cons.mp h with rfl | h2
              · obtain ⟨tag, rest⟩ := p
                exact matchVocabTag_tag_mem hv
              · exact ih p.2 q h2
          | none =>
              simp only [hv] at h
              exact ih t q h

lemma truncateL_length (m : Nat) (l : List Char) : (truncateL m l).length ≤ m + 1 := by
  unfold truncateL
  split
  · omega
  · rw [List.length_append]
    have h1 := trimRightJS_length_le (l.take m)
    rw [List.length_take] at h1
    have h2 : m ⊓ l.length ≤ m := Nat.min_le_left _ _
    simp only [List.length_cons, List.length_nil]
    omega

lemma mem_truncateL {c : Char} {m : Nat} {l : List Char} (h : c ∈ truncateL m l) :
    c ∈ l ∨ c = '…' := by
  unfold truncateL at h
  split at h
  · exact Or.inl h
  · rcases List.mem_append.mp h with h1 | h1
    · exact Or.inl (List.mem_of_mem_take (mem_trimRightJS h1))
    · simp at h1
      exact Or.inr h1

lemma timelineTags_lower :
    ∀ tag ∈ timelineTags, String.mk (tag.data.map Char.toLower) ∈
      ["question", "assumption", "challenge", "insight", "breakthrough"] := by
  decide

lemma parseTimelineEvents_props (content : String) :
    ∀ ev ∈ parseTimelineEvents content,
      ev.type ∈ ["question", "assumption", "challenge", "insight", "breakthrough"] ∧
        ('\n' ∉ ev.text.data) ∧ ev.text.data.length ≤ 81 := by
  intro ev hev
  unfold parseTimelineEvents at hev
  rcases List.mem_map.mp hev with ⟨q, hq, rfl⟩
  refine ⟨timelineTags_lower _ (splitTimelineGo_tag_mem _ _ _ hq), ?_, ?_⟩
  · intro hmem
    rcases mem_truncateL hmem with h1 | h1
    · have h2 := List.mem_takeWhile_imp h1
      simp at h2
    · exact absurd h1 (by decide)
  · exact truncateL_length _ _

lemma prefixOf_append_split {pat q suf : List Char} (h : pat.isPrefixOf (q ++ suf) = true)
    (hlen : q.length ≤ pat.length) : (pat.drop q.length).isPrefixOf suf = true := by
  have h1 : pat = (q ++ suf).take pat.length :=
    List.prefix_iff_eq_take.mp (isPrefixOf_eq.mp h)
  have h2 : (q ++ suf).take pat.length = q ++ suf.take (pat.length - q.length) := by
    rw [List.take_append_eq_append_take]
    congr 1
    exact List.take_of_length_le hlen
  rw [h2] at h1
  have h3 : pat.drop q.length = suf.take (pat.length - q.length) := by
    conv_lhs => rw [h1]
    exact List.drop_left q _
  rw [h3]
  exact isPrefixOf_eq.mpr ⟨suf.drop (pat.length - q.length), List.take_append_drop _ _⟩

lemma no_occurrence_before_append {pat x suf : List Char} (hx : ¬ OccursIn pat x)
    (hstr : ∀ k, 0 < k → k < pat.length → (pat.drop k).isPrefixOf suf = false) :
    ∀ j, j < x.length → pat.isPrefixOf ((x ++ suf).drop j) = false := by
  intro j hj
  by_contra hcon
  rw [Bool.not_eq_false] at hcon
  rw [drop_append_of_le suf (Nat.le_of_lt hj)] at hcon
  by_cases hcase : pat.length ≤ (x.drop j).length
  · rw [isPrefixOf_append_of_le suf hcase] at hcon
    exact hx ⟨j, Nat.le_of_lt hj, hcon⟩
  · have h1 : (x.drop j).length ≤ pat.length := Nat.le_of_lt (Nat.lt_of_not_le hcase)
    have h2 := prefixOf_append_split hcon h1
    have hk0 : 0 < (x.drop j).length := by
      rw [List.length_drop]
      omega
    have hk1 : (x.drop j).length < pat.length := Nat.lt_of_not_le hcase
    rw [hstr (x.drop j).length hk0 hk1] at h2
    simp at h2

lemma stripGo_no_open {xs : List Char} (h : firstIdx thinkOpenPat xs = none) :
    ∀ n, stripGo n xs = xs := by
  intro n
  cases n with
  | zero => rfl
  | succ n => simp only [stripGo, h]

lemma occursIn_of_firstIdx {pat xs : List Char} {i : Nat}
    (hf : firstIdx pat xs = some i) : OccursIn pat xs := by
  refine ⟨i, ?_, firstIdx_isPre hf⟩
  by_cases hp : pat = []
  · subst hp
    rcases firstIdx_eq_some_iff.mp hf with ⟨_, h2⟩
    cases i with
    | zero => exact Nat.zero_le _
    | succ n =>
        have := h2 0 (Nat.succ_pos n)
        simp [List.isPrefixOf] at this
  · have h1 := firstIdx_add_le hp hf
    have h2 : 1 ≤ pat.length := by
      cases pat with
      | nil => exact absurd rfl hp
      | cons a l => simp
    omega

lemma containsSub_iff {xs pat : List Char} : containsSub xs pat = true ↔ OccursIn pat xs := by
  unfold containsSub
  constructor
  · intro h
    rcases Option.isSome_iff_exists.mp h with ⟨i, hi⟩
    exact occursIn_of_firstIdx hi
  · intro h
    cases hf : firstIdx pat xs with
    | none => exact absurd h (firstIdx_none_iff.mp hf)
    | some i => simp

/-- C10: for every model-id string, `getProviderForModel` returns one of the
four known provider names — unknown prefixes default to groq — and on its
output the `Unknown provider` error branch of `streamChat` and `completeChat`
is unreachable: both dispatches reach a backend. -/
theorem getProviderForModel_total_dispatch_ok (modelId : String) :
    (getProviderForModel modelId = "gemini" ∨ getProviderForModel modelId = "openai" ∨
      getProviderForModel modelId = "anthropic" ∨ getProviderForModel modelId = "groq") ∧
    (∃ b, streamChatDispatch (getProviderForModel modelId) = Except.ok b) ∧
    (∃ b, completeChatDispatch (getProviderForModel modelId) = Except.ok b) := by
  unfold getProviderForModel streamChatDispatch completeChatDispatch
  split
  · exact ⟨by simp, ⟨AdapterBackend.gemini, by simp⟩, ⟨AdapterBackend.gemini, by simp⟩⟩
  · split
    · exact ⟨by simp, ⟨AdapterBackend.openai, by simp⟩, ⟨AdapterBackend.openai, by simp⟩⟩
    · split
      · exact ⟨by simp, ⟨AdapterBackend.anthropic, by simp⟩,
          ⟨AdapterBackend.anthropic, by simp⟩⟩
      · split
        · exact ⟨by simp, ⟨AdapterBackend.groq, by simp⟩, ⟨AdapterBackend.groq, by simp⟩⟩
        · exact ⟨by simp, ⟨AdapterBackend.groq, by simp⟩, ⟨AdapterBackend.groq, by simp⟩⟩

/-- C9: on every buffer the decoder state has `isThinking` and `isComplete`
mutually exclusive, and `responseContent` is non-empty only when the block is
complete or no open marker occurs in the buffer. -/
theorem parseThinkingContent_invariant (s : String) :
    (¬((parseThinkingContent s).isThinking = true ∧
        (parseThinkingContent s).isComplete = true)) ∧
    ((parseThinkingContent s).responseContent ≠ "" →
      (parseThinkingContent s).isComplete = true ∨ ¬ OccursIn thinkOpenPat s.data) := by
  cases ho : firstIdx thinkOpenPat s.data with
  | none =>
      simp only [parseThinkingContent, ho]
      exact ⟨by simp, fun _ => Or.inr (firstIdx_none_iff.mp ho)⟩
  | some o =>
      cases hc : firstIdx thinkClosePat s.data with
      | none =>
          simp only [parseThinkingContent, ho, hc]
          refine ⟨by simp, fun hne => ?_⟩
          simp at hne
      | some c =>
          simp only [parseThinkingContent, ho, hc]
          refine ⟨by simp, fun _ => Or.inl ?_⟩
          simp

/-- Witness for C9 at the concrete buffer `hi`: its responseContent is
non-empty and indeed no open marker occurs. -/
theorem parseThinkingContent_invariant_witness :
    (parseThinkingContent "hi").responseContent ≠ "" ∧
      ((parseThinkingContent "hi").isComplete = true ∨
        ¬ OccursIn thinkOpenPat ("hi").data) :=
  ⟨by decide, (parseThinkingContent_invariant "hi").2 (by decide)⟩

/-- C4: complete-block branch of the decoder: whenever the buffer contains
both markers, with first occurrences at positions `o` and `c`, the result is
complete and not thinking, rawThinking is the text strictly between the
markers (the characters from the end of the open marker up to the close
marker), steps are the reasoning-vocabulary extraction over it, and
responseContent is the text after the close marker, trimmed. -/
theorem parseThinkingContent_complete (s : String) (o c : Nat)
    (ho1 : thinkOpenPat.isPrefixOf (s.data.drop o) = true)
    (ho2 : ∀ j, j < o → thinkOpenPat.isPrefixOf (s.data.drop j) = false)
    (hc1 : thinkClosePat.isPrefixOf (s.data.drop c) = true)
    (hc2 : ∀ j, j < c → thinkClosePat.isPrefixOf (s.data.drop j) = false) :
    parseThinkingContent s =
      { isThinking := false, isComplete := true,
        steps := extractThinkingSteps (String.mk (sliceJS (o + 7) c s.data)),
        responseContent := String.mk (trimJS (s.data.drop (c + 8))),
        rawThinking := String.mk (sliceJS (o + 7) c s.data) } := by
  have ho : firstIdx thinkOpenPat s.data = some o := firstIdx_eq_some_iff.mpr ⟨ho1, ho2⟩
  have hc : firstIdx thinkClosePat s.data = some c := firstIdx_eq_some_iff.mpr ⟨hc1, hc2⟩
  simp only [parseThinkingContent, ho, hc]
  rfl

/-- Witness for C4: the spec's concrete example, discharging the
first-occurrence hypotheses at positions 0 and 24. -/
theorem parseThinkingContent_complete_witness :
    (thinkOpenPat.isPrefixOf (("<think>\n[ANALYZING] foo\n</think>\nHello").data.drop 0) =
        true) ∧
    parseThinkingContent "<think>\n[ANALYZING] foo\n</think>\nHello" =
      { isThinking := false, isComplete := true,
        steps := [⟨"ANALYZING", "foo"⟩],
        responseContent := "Hello", rawThinking := "\n[ANALYZING] foo\n" } := by
  constructor
  · decide
  · have h := parseThinkingContent_complete "<think>\n[ANALYZING] foo\n</think>\nHello" 0 24
      (by decide) (by decide) (by decide) (by decide)
    rw [h]
    decide

/-- C2 counterexample: the repository's `useChat` hook passes the raw
accumulated text to `addMessage`, not the marker-stripped clean text, and
computes the breakthrough flag on the raw text: on a buffer whose
breakthrough marker sits inside the thinking block the stored content keeps
the markers and the flag is true although the clean text does not contain the
marker. -/
theorem useChatPersist_not_clean :
    (useChatPersist "<think>[BREAKTHROUGH] x</think>Hi").content =
        "<think>[BREAKTHROUGH] x</think>Hi" ∧
      stripThinkingBlock "<think>[BREAKTHROUGH] x</think>Hi" = "Hi" ∧
      ("<think>[BREAKTHROUGH] x</think>Hi" : String) ≠ "Hi" ∧
      (useChatPersist "<think>[BREAKTHROUGH] x</think>Hi").isBreakthrough = true ∧
      containsSub ("Hi").data breakthroughMarker.data = false :=
  ⟨rfl, by decide, by decide, by decide, by decide⟩

/-- C2 (amended): in the live chat page's send handler with extended thinking
on, the persistence collaborator receives exactly the marker-stripped clean
text, a breakthrough flag that is true iff that clean text contains the
literal breakthrough marker, and the type of the last detected timeline
event of the clean text; with extended thinking off the accumulated text is
passed unchanged. The unreferenced `useChat` hook deviates from this (see
the counterexample). -/
theorem handleSendPersist_clean (fullContent : String) :
    (handleSendPersist true fullContent).content = stripThinkingBlock fullContent ∧
    ((handleSendPersist true fullContent).isBreakthrough = true ↔
      OccursIn breakthroughMarker.data (stripThinkingBlock fullContent).data) ∧
    (handleSendPersist true fullContent).timelineEvent =
      (parseTimelineEvents (stripThinkingBlock fullContent)).getLast?.map
        TimelineEvent.type ∧
    (handleSendPersist false fullContent).content = fullContent := by
  refine ⟨rfl, ?_, rfl, rfl⟩
  exact containsSub_iff

/-- C3 counterexample: the extraction regex is not anchored at line starts:
in the single-line input `x [ANALYZING] foo` no line begins with a bracketed
tag, yet a step is extracted, so the claimed (line-anchored, hence empty)
sequence differs from the computed one. -/
theorem extractThinkingSteps_not_line_anchored :
    extractThinkingSteps "x [ANALYZING] foo" = [⟨"ANALYZING", "foo"⟩] ∧
      matchVocabTag reasoningTags ("x [ANALYZING] foo").data = none ∧
      ([⟨"ANALYZING", "foo"⟩] : List ThinkingStep) ≠ [] :=
  ⟨by decide, by decide, by decide⟩

/-- C3 (amended): the extractor is pure and total by construction; every
extracted step carries one of the fifteen vocabulary tags in upper case and
a trimmed text free of line terminators, and an input with no opening
bracket yields the empty sequence. Matches may occur anywhere in a line, not
only at line starts (see the counterexample). -/
theorem extractThinkingSteps_props (raw : String) :
    (∀ st ∈ extractThinkingSteps raw,
        st.tag ∈ reasoningTags ∧ st.text.data = trimJS st.text.data ∧
          ∀ ch ∈ st.text.data, isDotJS ch = true) ∧
    ('[' ∉ raw.data → extractThinkingSteps raw = []) :=
  ⟨fun st hst => extractGo_props _ _ st hst,
   fun h => extractGo_nil_of_no_bracket _ _ h⟩

/-- Witness for C3: the properties instantiated at a concrete extracted step
and at a concrete bracket-free input. -/
theorem extractThinkingSteps_props_witness :
    ((⟨"ANALYZING", "foo"⟩ : ThinkingStep) ∈ extractThinkingSteps "x [ANALYZING] foo") ∧
      ((⟨"ANALYZING", "foo"⟩ : ThinkingStep).tag ∈ reasoningTags ∧
        (⟨"ANALYZING", "foo"⟩ : ThinkingStep).text.data =
          trimJS (⟨"ANALYZING", "foo"⟩ : ThinkingStep).text.data ∧
        ∀ ch ∈ (⟨"ANALYZING", "foo"⟩ : ThinkingStep).text.data, isDotJS ch = true) ∧
      ('[' ∉ ("hello").data) ∧ extractThinkingSteps "hello" = [] :=
  ⟨by decide,
   (extractThinkingSteps_props "x [ANALYZING] foo").1 _ (by decide),
   by decide,
   (extractThinkingSteps_props "hello").2 (by decide)⟩

/-- C7 counterexample: the code trims the segment before taking its first
line: for `[QUESTION] What is x?` the stored text is `What is x?`, while the
first line of the raw following segment (which starts with a space) survives
truncation to 80 characters unchanged, so the two disagree. -/
theorem parseTimelineEvents_trims_segment :
    parseTimelineEvents "[QUESTION] What is x?" = [⟨"question", "What is x?"⟩] ∧
      truncateL 80 (" What is x?").data = (" What is x?").data ∧
      ("What is x?" : String) ≠ " What is x?" :=
  ⟨by decide, by decide, by decide⟩

/-- C7 (amended): the split yields one event per tag occurrence in order of
appearance; each type is the lower-cased tag (one of the five), each text is
the first line of the trimmed following segment truncated to 80 characters,
hence free of newlines and at most 81 characters with the ellipsis; on the
spec's example the events are question then breakthrough and the canonical
timeline event (type of the last event) is breakthrough. -/
theorem parseTimelineEvents_example_and_bounds :
    parseTimelineEvents ("[QUESTION] What is x?\n[BREAKTHROUGH] It" ++
        String.singleton (Char.ofNat 39) ++ "s 5!") =
      [⟨"question", "What is x?"⟩,
       ⟨"breakthrough", "It" ++ String.singleton (Char.ofNat 39) ++ "s 5!"⟩] ∧
    mainTimelineEvent ("[QUESTION] What is x?\n[BREAKTHROUGH] It" ++
        String.singleton (Char.ofNat 39) ++ "s 5!") = some "breakthrough" ∧
    ∀ (content : String), ∀ ev ∈ parseTimelineEvents content,
      ev.type ∈ ["question", "assumption", "challenge", "insight", "breakthrough"] ∧
        ('\n' ∉ ev.text.data) ∧ ev.text.data.length ≤ 81 :=
  ⟨by decide, by decide, parseTimelineEvents_props⟩

/-- Witness for C7: the bound properties instantiated at a concrete event of
a concrete content. -/
theorem parseTimelineEvents_bounds_witness :
    ((⟨"question", "What is x?"⟩ : TimelineEvent) ∈
        parseTimelineEvents "[QUESTION] What is x?") ∧
      ((⟨"question", "What is x?"⟩ : TimelineEvent).type ∈
          ["question", "assumption", "challenge", "insight", "breakthrough"] ∧
        ('\n' ∉ (⟨"question", "What is x?"⟩ : TimelineEvent).text.data) ∧
        (⟨"question", "What is x?"⟩ : TimelineEvent).text.data.length ≤ 81) :=
  ⟨by decide,
   parseTimelineEvents_example_and_bounds.2.2 "[QUESTION] What is x?" _ (by decide)⟩

lemma countP_isError_textEvents {α : Type} (f : α → StreamEvent)
    (hf : ∀ a, isErrorEvent (f a) = false) (l : List α) :
    (l.map f).countP isErrorEvent = 0 :=
  List.countP_eq_zero.mpr fun a ha => by
    rcases List.mem_map.mp ha with ⟨x, _, rfl⟩
    simp [hf x]

lemma countP_isError_decomposeStepEvents (d : String) :
    (decomposeStepEvents d).countP isErrorEvent = 0 := by
  unfold decomposeStepEvents
  exact countP_isError_textEvents (fun st => StreamEvent.text (stepLine st))
    (fun a => rfl) _

/-- C6: error short-circuit of the orchestrator: whichever adapter call
fails, the run consists of the events already emitted followed by exactly one
`Error` event carrying the failure's message, which is the last event of the
stream; in particular a decompose failure yields only the opening sentinel
and the error, so no respond-stage `Text` fragment is ever emitted. -/
theorem extendedRun_error_short_circuit :
    (∀ (e : String) (cri : Except String String) (chunks : List String)
        (rerr : Option String),
      extendedRun (Except.error e) cri chunks rerr =
          [StreamEvent.text openingSentinel, StreamEvent.error e] ∧
        (extendedRun (Except.error e) cri chunks rerr).countP isErrorEvent = 1 ∧
        (extendedRun (Except.error e) cri chunks rerr).getLast? =
          some (StreamEvent.error e)) ∧
    (∀ (d e : String) (chunks : List String) (rerr : Option String),
      extendedRun (Except.ok d) (Except.error e) chunks rerr =
          StreamEvent.text openingSentinel :: decomposeStepEvents d ++
            [StreamEvent.text critiquingLine, StreamEvent.error e] ∧
        (extendedRun (Except.ok d) (Except.error e) chunks rerr).countP isErrorEvent = 1 ∧
        (extendedRun (Except.ok d) (Except.error e) chunks rerr).getLast? =
          some (StreamEvent.error e)) ∧
    (∀ (d c e : String) (chunks : List String),
      extendedRun (Except.ok d) (Except.ok c) chunks (some e) =
          StreamEvent.text openingSentinel :: decomposeStepEvents d ++
            [StreamEvent.text critiquingLine, StreamEvent.text refiningLine,
             StreamEvent.text validatingLine, StreamEvent.text closingSentinel] ++
            chunks.map StreamEvent.text ++ [StreamEvent.error e] ∧
        (extendedRun (Except.ok d) (Except.ok c) chunks (some e)).countP isErrorEvent = 1 ∧
        (extendedRun (Except.ok d) (Except.ok c) chunks (some e)).getLast? =
          some (StreamEvent.error e)) := by
  refine ⟨fun e cri chunks rerr =>
      ⟨rfl, by simp [extendedRun, List.countP_cons, isErrorEvent], rfl⟩,
    fun d e chunks rerr => ⟨rfl, ?_, ?_⟩, fun d c e chunks => ⟨rfl, ?_, ?_⟩⟩
  · show List.countP isErrorEvent (StreamEvent.text openingSentinel ::
        decomposeStepEvents d ++ [StreamEvent.text critiquingLine, StreamEvent.error e]) = 1
    simp [List.countP_append, List.countP_cons, countP_isError_decomposeStepEvents,
      isErrorEvent]
  · show (StreamEvent.text openingSentinel :: decomposeStepEvents d ++
        [StreamEvent.text critiquingLine, StreamEvent.error e]).getLast? =
      some (StreamEvent.error e)
    rw [List.getLast?_append]
    rfl
  · show List.countP isErrorEvent (StreamEvent.text openingSentinel ::
        decomposeStepEvents d ++
        [StreamEvent.text critiquingLine, StreamEvent.text refiningLine,
         StreamEvent.text validatingLine, StreamEvent.text closingSentinel] ++
        chunks.map StreamEvent.text ++ [StreamEvent.error e]) = 1
    simp [List.countP_append, List.countP_cons, countP_isError_decomposeStepEvents,
      countP_isError_textEvents StreamEvent.text (fun a => rfl), isErrorEvent]
  · show (StreamEvent.text openingSentinel :: decomposeStepEvents d ++
        [StreamEvent.text critiquingLine, StreamEvent.text refiningLine,
         StreamEvent.text validatingLine, StreamEvent.text closingSentinel] ++
        chunks.map StreamEvent.text ++ [StreamEvent.error e]).getLast? =
      some (StreamEvent.error e)
    rw [List.getLast?_append]
    rfl

lemma decomposeSteps_tag_mem {d : String} {st : ThinkingStep}
    (h : st ∈ decomposeSteps d) : st.tag ∈ reasoningTags := by
  unfold decomposeSteps at h
  cases hf : firstThinkInner d with
  | some inner =>
      simp only [hf] at h
      exact (extractGo_props inner.data.length inner.data st h).1
  | none =>
      simp only [hf] at h
      exact (extractGo_props d.data.length d.data st h).1

/-- C5: ordering of a successful extended-mode run: the emitted events are
exactly the opening sentinel, then the synthesized reasoning lines (the
decomposition steps and the three narration lines, all of which are
reasoning-vocabulary `Text` events), then the closing sentinel, then the
respond-stage chunks in order, and `Done` last. -/
theorem extendedRun_ordering (d c : String) (chunks : List String) :
    extendedRun (Except.ok d) (Except.ok c) chunks none =
        StreamEvent.text openingSentinel :: decomposeStepEvents d ++
          [StreamEvent.text critiquingLine, StreamEvent.text refiningLine,
           StreamEvent.text validatingLine] ++ [StreamEvent.text closingSentinel] ++
          chunks.map StreamEvent.text ++ [StreamEvent.done] ∧
    (decomposeStepEvents d ++
        [StreamEvent.text critiquingLine, StreamEvent.text refiningLine,
         StreamEvent.text validatingLine]).all isReasoningVocabText = true ∧
    (extendedRun (Except.ok d) (Except.ok c) chunks none).getLast? =
      some StreamEvent.done := by
  refine ⟨?_, ?_, ?_⟩
  · show StreamEvent.text openingSentinel :: decomposeStepEvents d ++
        [StreamEvent.text critiquingLine, StreamEvent.text refiningLine,
         StreamEvent.text validatingLine, StreamEvent.text closingSentinel] ++
        chunks.map StreamEvent.text ++ [StreamEvent.done] = _
    simp [List.append_assoc]
  · rw [List.all_append, Bool.and_eq_true]
    constructor
    · apply List.all_eq_true.mpr
      intro e he
      rcases List.mem_map.mp he with ⟨st, hst, rfl⟩
      exact matchVocabTag_stepLine (decomposeSteps_tag_mem hst)
    · decide
  · show (StreamEvent.text openingSentinel :: decomposeStepEvents d ++
        [StreamEvent.text critiquingLine, StreamEvent.text refiningLine,
         StreamEvent.text validatingLine, StreamEvent.text closingSentinel] ++
        chunks.map StreamEvent.text ++ [StreamEvent.done]).getLast? =
      some StreamEvent.done
    rw [List.getLast?_append]
    rfl

/-- C1 counterexample: prefix monotonicity fails before the close marker has
arrived: for the final string `a<think>`, the prefix `a` has non-empty
responseContent `a`, which is withdrawn (reset to empty) when the open
marker arrives; and for the final string `<think>[ANALYZING] ab`, extending
the prefix `<think>[ANALYZING] a` replaces the step with text `a` by one
with text `ab`, so a previously emitted step is removed. -/
theorem parseThinkingContent_not_monotone :
    (parseThinkingContent "a").responseContent = "a" ∧
      (parseThinkingContent ("a" ++ "<think>")).responseContent = "" ∧
      ("a" : String) ≠ "" ∧
      (parseThinkingContent "<think>[ANALYZING] a").steps = [⟨"ANALYZING", "a"⟩] ∧
      (parseThinkingContent ("<think>[ANALYZING] a" ++ "b")).steps =
        [⟨"ANALYZING", "ab"⟩] ∧
      (⟨"ANALYZING", "a"⟩ : ThinkingStep) ∉ [(⟨"ANALYZING", "ab"⟩ : ThinkingStep)] :=
  ⟨by decide, by decide, by decide, by decide, by decide, by decide⟩

/-- C1 (amended): monotonicity under prefix growth holds from the moment the
block is complete, and in the never-opened case: if the prefix `s` already
contains both markers, then for every extension `s ++ t` the state stays
complete, the steps and rawThinking are unchanged, and responseContent only
grows by extension; if no open marker occurs in `s ++ t`, the steps stay
empty and responseContent grows by extension. Before the close marker
arrives the tail step and a pre-open responseContent may still change (see
the counterexample). -/
theorem parseThinkingContent_monotone_after_complete (s t : String) :
    ((parseThinkingContent s).isComplete = true →
      (parseThinkingContent (s ++ t)).isComplete = true ∧
      (parseThinkingContent (s ++ t)).steps = (parseThinkingContent s).steps ∧
      (parseThinkingContent (s ++ t)).rawThinking =
        (parseThinkingContent s).rawThinking ∧
      (parseThinkingContent s).responseContent.data <+:
        (parseThinkingContent (s ++ t)).responseContent.data) ∧
    (¬ OccursIn thinkOpenPat (s.data ++ t.data) →
      (parseThinkingContent s).steps = [] ∧
      (parseThinkingContent (s ++ t)).steps = [] ∧
      (parseThinkingContent s).responseContent.data <+:
        (parseThinkingContent (s ++ t)).responseContent.data) := by
  have hdata : (s ++ t).data = s.data ++ t.data := String.data_append s t
  constructor
  · intro hcomp
    cases ho : firstIdx thinkOpenPat s.data with
    | none => simp [parseThinkingContent, ho] at hcomp
    | some o =>
        cases hc : firstIdx thinkClosePat s.data with
        | none => simp [parseThinkingContent, ho, hc] at hcomp
        | some c =>
            have ho2 : firstIdx thinkOpenPat (s ++ t).data = some o := by
              rw [hdata]
              exact firstIdx_append t.data ho
            have hc2 : firstIdx thinkClosePat (s ++ t).data = some c := by
              rw [hdata]
              exact firstIdx_append t.data hc
            have h8 : c + 8 ≤ s.data.length := by
              have h1 := firstIdx_add_le (show thinkClosePat ≠ [] by decide) hc
              have h2 : thinkClosePat.length = 8 := by decide
              omega
            have hsl : sliceJS (o + 7) c ((s ++ t).data) = sliceJS (o + 7) c s.data := by
              rw [hdata]
              exact sliceJS_append t.data (by omega)
            simp only [parseThinkingContent, ho, hc, ho2, hc2]
            refine ⟨by simp, by rw [hsl], by rw [hsl], ?_⟩
            show trimJS (s.data.drop (c + 8)) <+: trimJS ((s ++ t).data.drop (c + 8))
            rw [hdata, drop_append_of_le t.data (by omega)]
            exact trimJS_grows _ _
  · intro hno
    have hnos : ¬ OccursIn thinkOpenPat s.data := by
      intro hocc
      rcases hocc with ⟨i, hi, hp⟩
      apply hno
      refine ⟨i, ?_, ?_⟩
      · rw [List.length_append]
        omega
      · rw [drop_append_of_le t.data hi]
        exact isPrefixOf_eq.mpr ((isPrefixOf_eq.mp hp).trans (List.prefix_append _ _))
    have ho : firstIdx thinkOpenPat s.data = none := firstIdx_none_iff.mpr hnos
    have ho2 : firstIdx thinkOpenPat (s ++ t).data = none := by
      rw [hdata]
      exact firstIdx_none_iff.mpr hno
    simp only [parseThinkingContent, ho, ho2]
    refine ⟨by simp, by simp, ?_⟩
    show s.data <+: (s ++ t).data
    rw [hdata]
    exact List.prefix_append _ _

/-- Witness for C1: a complete prefix and a concrete extension, the frozen
state checked through the amended theorem. -/
theorem parseThinkingContent_monotone_witness :
    (parseThinkingContent "<think>a</think> hi").isComplete = true ∧
      ((parseThinkingContent ("<think>a</think> hi" ++ "!")).isComplete = true ∧
        (parseThinkingContent ("<think>a</think> hi" ++ "!")).steps =
          (parseThinkingContent "<think>a</think> hi").steps ∧
        (parseThinkingContent ("<think>a</think> hi" ++ "!")).rawThinking =
          (parseThinkingContent "<think>a</think> hi").rawThinking ∧
        (parseThinkingContent "<think>a</think> hi").responseContent.data <+:
          (parseThinkingContent ("<think>a</think> hi" ++ "!")).responseContent.data) :=
  ⟨by decide,
   (parseThinkingContent_monotone_after_complete "<think>a</think> hi" "!").1 (by decide)⟩

/-- C8 counterexample: the non-greedy span ends at the first close marker, so
the claim fails for a content `x` that itself contains the close marker: with
`x` equal to the close marker, one close marker survives stripping and the
result is not `ab`. -/
theorem stripThinkingBlock_nested_close :
    stripThinkingBlock "a<think></think></think>b" = "a</think>b" ∧
      ("a</think>b" : String) ≠ "ab" :=
  ⟨by decide, by decide⟩

lemma stripGo_span (x : List Char) (hx : ¬ OccursIn thinkClosePat x) :
    ∀ n, 0 < n →
      stripGo n (('a' :: thinkOpenPat) ++ (x ++ ("</think>b").data)) = ['a', 'b'] := by
  intro n hn
  have hopen : firstIdx thinkOpenPat
      (('a' :: thinkOpenPat) ++ (x ++ ("</think>b").data)) = some 1 := by
    apply firstIdx_eq_some_iff.mpr
    constructor
    · show thinkOpenPat.isPrefixOf
        ((('a' :: thinkOpenPat) ++ (x ++ ("</think>b").data)).drop 1) = true
      rw [List.cons_append]
      show thinkOpenPat.isPrefixOf (thinkOpenPat ++ (x ++ ("</think>b").data)) = true
      exact isPrefixOf_append_self _ _
    · intro j hj
      have hj0 : j = 0 := by omega
      subst hj0
      rw [List.drop_zero, List.cons_append]
      have hpat : thinkOpenPat = '<' :: ("think>").data := by decide
      rw [hpat, isPrefixOf_cons_cons]
      have hf : ('<' == 'a') = false := by decide
      rw [hf, Bool.false_and]
  have hdrop8 : (('a' :: thinkOpenPat) ++ (x ++ ("</think>b").data)).drop (1 + 7) =
      x ++ ("</think>b").data :=
    List.drop_left' (by decide)
  have hstraddle : ∀ k, k < thinkClosePat.length → 0 < k →
      (thinkClosePat.drop k).isPrefixOf (("</think>b").data) = false := by decide
  have hclose : firstIdx thinkClosePat
      ((('a' :: thinkOpenPat) ++ (x ++ ("</think>b").data)).drop (1 + 7)) =
      some x.length := by
    rw [hdrop8]
    apply firstIdx_eq_some_iff.mpr
    constructor
    · rw [List.drop_left]
      decide
    · exact no_occurrence_before_append hx (fun k h1 h2 => hstraddle k h2 h1)
  cases n with
  | zero => omega
  | succ m =>
      simp only [stripGo, hopen, hclose]
      have htake : (('a' :: thinkOpenPat) ++ (x ++ ("</think>b").data)).take 1 = ['a'] :=
        rfl
      have hrest : ((((('a' :: thinkOpenPat) ++ (x ++ ("</think>b").data)).drop (1 + 7)).drop
          (x.length + 8)).dropWhile isSpaceJS) = ['b'] := by
        rw [hdrop8, List.drop_append]
        decide
      rw [htake, hrest, stripGo_no_open (by decide) m]
      rfl

/-- C8 (amended): for every content `x` that does not itself contain the
close marker — embedded newlines and even open markers are allowed — the
strip function removes the whole `a<think>` ++ x ++ `</think>b` span
markers and all, yielding `ab` after the final trim. When `x` contains a
close marker, the non-greedy match ends at it instead (see the
counterexample). -/
theorem stripThinkingBlock_strips_span (x : String)
    (hx : ¬ OccursIn thinkClosePat x.data) :
    stripThinkingBlock ("a<think>" ++ x ++ "</think>b") = "ab" := by
  have hdata : ("a<think>" ++ x ++ "</think>b").data =
      ('a' :: thinkOpenPat) ++ (x.data ++ ("</think>b").data) := by
    rw [String.data_append, String.data_append]
    have h1 : ("a<think>").data = 'a' :: thinkOpenPat := by decide
    rw [h1, List.append_assoc]
  unfold stripThinkingBlock
  rw [hdata, stripGo_span x.data hx _ (by simp)]
  decide

/-- Witness for C8: a concrete multi-line content free of close markers. -/
theorem stripThinkingBlock_strips_span_witness :
    (¬ OccursIn thinkClosePat ("x\ny<think>" : String).data) ∧
      stripThinkingBlock ("a<think>" ++ "x\ny<think>" ++ "</think>b") = "ab" :=
  ⟨by decide, stripThinkingBlock_strips_span "x\ny<think>" (by decide)⟩
